import Mathlib

/-!
Shallow embedding of the Sample Tabulator utilities in
`src/SanityChecks/EventYield_v2.cpp` (the accumulating variant) and the
directory-walking logic it shares with `src/SanityChecks/EventYields.cpp`.

The filesystem is modelled as a tree of named entries; the opaque ROOT
reader (TFile / TTree) is modelled by a record saying whether the file
opens, whether the tree `nominal_Loose` is present, and what entry counts
the reader reports.  The C++ `size_t` arithmetic in the inclusion
predicate `filename.rfind(".root") == filename.length() - 5` is modelled
exactly, with explicit wrap-around modulo 2^64.
-/

namespace EventYieldV2

/-- The modulus of C++ `size_t` arithmetic, two to the power 64. -/
def UMAX : Nat := 18446744073709551616

/-- The value `std::string::npos`, the largest `size_t`, 2^64 - 1. -/
def NPOS : Nat := UMAX - 1

/-- The pattern `".root"` searched for by `rfind` (EventYield_v2.cpp lines 64
and 117, EventYields.cpp lines 51 and 102). -/
def rootExt : List Char := ['.', 'r', 'o', 'o', 't']

/-- Whether `p` is an initial segment of `l`. -/
def listStartsWith : List Char → List Char → Bool
  | [], _ => true
  | _ :: _, [] => false
  | p :: ps, c :: cs => p == c && listStartsWith ps cs

/-- The pattern `pat` occurs in `s` beginning at position `i`. -/
def occursAt (s pat : List Char) (i : Nat) : Bool := listStartsWith pat (s.drop i)

/-- The search loop of `std::string::rfind`: the highest position at most `n`
at which `pat` occurs in `s`, and `NPOS` when there is none. -/
def rfindFrom (s pat : List Char) : Nat → Nat
  | 0 => if occursAt s pat 0 then 0 else NPOS
  | n + 1 => if occursAt s pat (n + 1) then n + 1 else rfindFrom s pat n

/-- The value of `s.rfind(pat)`: the start position of the last occurrence of
`pat` in `s`, or `NPOS` when `pat` does not occur. -/
def strRfind (s pat : List Char) : Nat := rfindFrom s pat s.length

/-- The expression `len - 5` evaluated in `size_t` arithmetic: subtraction
wraps modulo 2^64, so for `len < 5` the result is a huge value (in
particular `len = 4` yields exactly `NPOS`). -/
def sizeSub5 (len : Nat) : Nat := (len + UMAX - 5) % UMAX

/-- The inclusion predicate of the walk and of the counting pre-pass:
`filename.rfind(".root") == filename.length() - 5`
(EventYield_v2.cpp lines 64 and 117, EventYields.cpp lines 51 and 102),
with the `size_t` semantics of both sides modelled exactly. -/
def isRootFile (name : String) : Bool :=
  strRfind name.data rootExt == sizeSub5 name.data.length

/-- The specification's inclusion predicate, in the spec's own words: the
file name ends in the recognized data-file extension `".root"`. -/
def endsWithRoot (name : String) : Bool :=
  decide (5 ≤ name.data.length) && occursAt name.data rootExt (name.data.length - 5)

/-- The sample identifier derived from a file name:
`filename.substr(0, filename.length() - 5)` (EventYield_v2.cpp line 118),
where the count argument is again computed in `size_t` arithmetic and
`substr` clamps the count to the string length. -/
def sampleOf (name : String) : String :=
  ⟨name.data.take (sizeSub5 name.data.length)⟩

/-- The behaviour of the opaque ROOT reader on one file: whether `TFile`
opens it (not null, not a zombie), whether `Get("nominal_Loose")` finds the
tree, and the entry counts the tree reports. -/
structure FileData where
  opens : Bool
  hasTree : Bool
  nEntries : Int
  nSelected : Int
deriving DecidableEq

/-- A filesystem entry: a plain file with its reader behaviour, or a
directory with a name, a readability flag (whether `opendir` succeeds) and
its own entries. -/
inductive Entry where
  | file (name : String) (data : FileData)
  | dir (name : String) (readable : Bool) (sub : List Entry)

/-- A record of one file being handed to the per-file processing routine
`getEntries`: its bare name, its full path and its reader behaviour. -/
structure FileVisit where
  name : String
  path : String
  data : FileData
deriving DecidableEq

/-- The recursive file-counting pre-pass `countRootFiles` restricted to the
entry list of a readable directory (EventYield_v2.cpp lines 48 to 70):
directories other than `"."` and `".."` are recursed into (an unreadable
one contributes zero), and a file is counted exactly when the inclusion
predicate holds. -/
def countEntries : List Entry → Nat
  | [] => 0
  | Entry.file name _ :: rest =>
      (if isRootFile name then 1 else 0) + countEntries rest
  | Entry.dir name r sub :: rest =>
      (if name ≠ "." ∧ name ≠ ".." then (if r then countEntries sub else 0) else 0)
        + countEntries rest

/-- The function `countRootFiles` on a directory: zero when `opendir` fails,
otherwise the count over its entries. -/
def countRootFiles (readable : Bool) (es : List Entry) : Nat :=
  if readable then countEntries es else 0

/-- The diagnostic line of EventYield_v2.cpp line 75. -/
def errOpen (full : String) : String := "Error: could not open file " ++ full

/-- The diagnostic line of EventYield_v2.cpp line 80. -/
def errTree (full : String) : String :=
  "Error: could not find tree \x27nominal_Loose\x27 in file " ++ full

/-- The diagnostic line of EventYield_v2.cpp line 101. -/
def errDir (dp : String) : String := "Error: could not open directory " ++ dp

/-- Left-justified fixed-width output, `std::left << std::setw w`. -/
def padRight (s : String) (w : Nat) : String :=
  s ++ ⟨List.replicate (w - s.data.length) ' '⟩

/-- The separator `std::string(80, '-')`. -/
def dashes80 : String := ⟨List.replicate 80 '-'⟩

/-- The per-directory column header row (EventYield_v2.cpp line 113). -/
def tableHeader : String :=
  padRight "Sample" 40 ++ padRight "Entries" 20 ++ padRight "Selected Entries" 20

/-- The three log lines written when the walk enters a subdirectory
(EventYield_v2.cpp lines 112 to 114). -/
def dirHeaderLines (full : String) : List String :=
  ["\nDirectory: " ++ full, tableHeader, dashes80]

/-- The observable global state of a run of the accumulating variant: the
`eventYields` map (as an association list in insertion order), the lines
written to `logFile`, the arguments of every `printProgressBar` call made
so far, and the trace of files handed to `getEntries`. -/
structure GlobalState where
  yields : List (String × Int)
  log : List String
  bars : List (Nat × Nat)
  handed : List FileVisit
deriving DecidableEq

/-- The state at the start of `main`: empty map, empty log, no progress
output, no file processed. -/
def initialState : GlobalState := ⟨[], [], [], []⟩

/-- The update `eventYields[sampleName] += v` on an `unordered_map`
modelled as an association list: `operator[]` value-initialises an absent
key to zero, so an absent key is appended with value `v`, and a present
key has `v` added to its stored value. -/
def mapAdd (m : List (String × Int)) (k : String) (v : Int) : List (String × Int) :=
  match m with
  | [] => [(k, v)]
  | (k₀, v₀) :: rest => if k₀ = k then (k₀, v₀ + v) :: rest else (k₀, v₀) :: mapAdd rest k v

/-- The value stored in the association-list map for key `k`, zero when the
key is absent. -/
def lookup0 (m : List (String × Int)) (k : String) : Int :=
  match m with
  | [] => 0
  | (k₀, v₀) :: rest => if k₀ = k then v₀ else lookup0 rest k

/-- The result of one call to `getEntries` (EventYield_v2.cpp lines 72 to
93): the new global state, the value of the caller's progress counter
after the call, and whether the `TFile` handle was closed before the
routine returned. -/
structure GetEntriesResult where
  state : GlobalState
  progress : Nat
  closed : Bool

/-- The routine `getEntries` of the accumulating variant (EventYield_v2.cpp
lines 72 to 93).  If the file does not open (null or zombie) the routine
logs a diagnostic and returns at line 76, without closing the handle.  If
tree `nominal_Loose` is absent it logs a diagnostic, closes the handle and
returns at line 82.  Otherwise the selected-entry count is added into the
yields map, the handle is closed, the progress counter is incremented, and
`printProgressBar(progress, total)` is called. -/
def getEntriesStep (sampleName full : String) (d : FileData) (progress total : Nat)
    (st : GlobalState) : GetEntriesResult :=
  if d.opens = false then
    ⟨{ st with log := st.log ++ [errOpen full] }, progress, false⟩
  else if d.hasTree = false then
    ⟨{ st with log := st.log ++ [errTree full] }, progress, true⟩
  else
    ⟨{ st with yields := mapAdd st.yields sampleName d.nSelected,
               bars := st.bars ++ [(progress + 1, total)] }, progress + 1, true⟩

/-- The loop body of `processDirectory` over the entry list of a readable
directory (EventYield_v2.cpp lines 104 to 121), threading the local
progress counter.  A subdirectory other than `"."` and `".."` gets its
header lines logged and is then processed by a recursive
`processDirectory` call, inlined here: the recursive call computes its own
`total := countRootFiles` and starts its own progress counter at zero, and
an unreadable subdirectory only logs a diagnostic.  A file satisfying the
inclusion predicate is handed to `getEntries` with the sample identifier
derived from its name. -/
def processEntries (dp : String) (total : Nat) (es : List Entry) (p : Nat)
    (st : GlobalState) : Nat × GlobalState :=
  match es with
  | [] => (p, st)
  | Entry.file name d :: rest =>
      if isRootFile name then
        processEntries dp total rest
          (getEntriesStep (sampleOf name) (dp ++ "/" ++ name) d p total
            { st with handed := st.handed ++ [⟨name, dp ++ "/" ++ name, d⟩] }).progress
          (getEntriesStep (sampleOf name) (dp ++ "/" ++ name) d p total
            { st with handed := st.handed ++ [⟨name, dp ++ "/" ++ name, d⟩] }).state
      else
        processEntries dp total rest p st
  | Entry.dir name r sub :: rest =>
      if name ≠ "." ∧ name ≠ ".." then
        if r then
          processEntries dp total rest p
            (processEntries (dp ++ "/" ++ name) (countEntries sub) sub 0
              { st with log := st.log ++ dirHeaderLines (dp ++ "/" ++ name) }).2
        else
          processEntries dp total rest p
            { st with log := (st.log ++ dirHeaderLines (dp ++ "/" ++ name))
                              ++ [errDir (dp ++ "/" ++ name)] }
      else
        processEntries dp total rest p st

/-- The function `processDirectory` (EventYield_v2.cpp lines 95 to 123): it
computes `total := countRootFiles(dir_path)`, and either iterates over the
directory entries with a fresh progress counter, or — when `opendir`
fails — logs a diagnostic and returns. -/
def processDirectory (dp : String) (readable : Bool) (es : List Entry)
    (st : GlobalState) : GlobalState :=
  if readable then (processEntries dp (countRootFiles readable es) es 0 st).2
  else { st with log := st.log ++ [errDir dp] }

/-- One run of the accumulating variant from `main` (EventYield_v2.cpp
line 135 to 136): starting from the empty map and empty log,
`processDirectory` is applied to the root the user entered. -/
def runTabulator (dp : String) (readable : Bool) (es : List Entry) : GlobalState :=
  processDirectory dp readable es initialState

/-- The grand total computed by the summary loop of `main`
(EventYield_v2.cpp lines 139 to 143): `totalYield` starts at zero and the
loop adds every stored value in turn. -/
def grandTotal (m : List (String × Int)) : Int :=
  m.foldl (fun acc e => acc + e.2) 0

/-- The per-sample rows of the closing summary (EventYield_v2.cpp
line 141): one `sample TAB yield` line per entry of the map, in the order
the map is enumerated. -/
def summaryLines (m : List (String × Int)) : List String :=
  m.map (fun e => e.1 ++ "\t" ++ toString e.2)

/-- The integer percentage displayed by `printProgressBar`
(EventYield_v2.cpp lines 33 to 46): `int(progress / total * 100.0)`,
truncation of a non-negative ratio.  The `float` arithmetic of the source
is modelled by exact rational arithmetic; at the point the claims
exercise, `progress = total`, the `float` ratio is exactly `1.0` and the
two agree. -/
def printProgressBarPercent (progress total : Nat) : Int :=
  ⌊((progress : ℚ) / (total : ℚ)) * 100⌋

/-- The files under a directory entry list that the walk would visit, in
traversal order: every file entry, restricted to subdirectories that are
readable and not named `"."` or `".."`, with no inclusion predicate
applied. -/
def allFilesEntries (dp : String) : List Entry → List FileVisit
  | [] => []
  | Entry.file name d :: rest =>
      ⟨name, dp ++ "/" ++ name, d⟩ :: allFilesEntries dp rest
  | Entry.dir name r sub :: rest =>
      (if name ≠ "." ∧ name ≠ ".." then
        (if r then allFilesEntries (dp ++ "/" ++ name) sub else []) else [])
        ++ allFilesEntries dp rest

/-- The files that the walk hands to `getEntries`, in traversal order:
`allFilesEntries` restricted by the code's inclusion predicate.  This is
proved below to coincide with the `handed` trace of `processEntries`. -/
def handedEntries (dp : String) : List Entry → List FileVisit
  | [] => []
  | Entry.file name d :: rest =>
      (if isRootFile name then [⟨name, dp ++ "/" ++ name, d⟩] else [])
        ++ handedEntries dp rest
  | Entry.dir name r sub :: rest =>
      (if name ≠ "." ∧ name ≠ ".." then
        (if r then handedEntries (dp ++ "/" ++ name) sub else []) else [])
        ++ handedEntries dp rest

/-- The set of files the specification says should be processed, in the
spec's own words: the files under the root whose names end in the
recognized data-file extension `".root"` (within readable, non-pseudo
directories), each listed once in traversal order. -/
def specEligibleFiles (dp : String) : List Entry → List FileVisit
  | [] => []
  | Entry.file name d :: rest =>
      (if endsWithRoot name then [⟨name, dp ++ "/" ++ name, d⟩] else [])
        ++ specEligibleFiles dp rest
  | Entry.dir name r sub :: rest =>
      (if name ≠ "." ∧ name ≠ ".." then
        (if r then specEligibleFiles (dp ++ "/" ++ name) sub else []) else [])
        ++ specEligibleFiles dp rest

/-- The per-file contributions of a list of handed files: a file that opens
and has the tree contributes the pair of its derived sample identifier and
its selected-entry count; a failing file contributes nothing. -/
def contribsOf (l : List FileVisit) : List (String × Int) :=
  l.filterMap fun v =>
    if v.data.opens && v.data.hasTree then some (sampleOf v.name, v.data.nSelected)
    else none

/-- Folding a list of contributions into a yields map with `mapAdd`. -/
def applyContribs (m : List (String × Int)) (l : List (String × Int)) :
    List (String × Int) :=
  l.foldl (fun m e => mapAdd m e.1 e.2) m

/-- The sum of the contributions whose sample identifier is `s`. -/
def contribSum (s : String) (l : List (String × Int)) : Int :=
  ((l.filter fun e => e.1 == s).map Prod.snd).sum

/-! Lemmas about the inclusion predicate. -/

theorem listStartsWith_le : ∀ p l : List Char, listStartsWith p l = true →
    p.length ≤ l.length
  | [], _, _ => Nat.zero_le _
  | _ :: _, [], h => by simp [listStartsWith] at h
  | p :: ps, c :: cs, h => by
      simp only [listStartsWith, Bool.and_eq_true] at h
      simpa [List.length_cons, Nat.succ_le_succ_iff] using
        listStartsWith_le ps cs h.2

theorem listStartsWith_iff_eq : ∀ p l : List Char, l.length = p.length →
    (listStartsWith p l = true ↔ l = p)
  | [], [], _ => by simp [listStartsWith]
  | [], _ :: _, h => by simp at h
  | _ :: _, [], h => by simp at h
  | p :: ps, c :: cs, h => by
      simp only [List.length_cons, Nat.succ_inj] at h
      simp only [listStartsWith, Bool.and_eq_true, beq_iff_eq,
        List.cons.injEq, listStartsWith_iff_eq ps cs h]
      tauto

theorem occursAt_rootExt_le {s : List Char} {i : Nat}
    (h : occursAt s rootExt i = true) : i + 5 ≤ s.length := by
  have h₁ := listStartsWith_le rootExt (s.drop i) h
  have h₂ : rootExt.length = 5 := by decide
  rw [h₂, List.length_drop] at h₁
  omega

theorem rfindFrom_none {s pat : List Char} : ∀ {n : Nat},
    (∀ j, j ≤ n → occursAt s pat j = false) → rfindFrom s pat n = NPOS
  | 0, h => by simp [rfindFrom, h 0 (Nat.le_refl 0)]
  | n + 1, h => by
      simp only [rfindFrom, h (n + 1) (Nat.le_refl _), Bool.false_eq_true, if_false]
      exact rfindFrom_none fun j hj => h j (Nat.le_succ_of_le hj)

theorem rfindFrom_found {s pat : List Char} {k : Nat} : ∀ {n : Nat}, k ≤ n →
    occursAt s pat k = true →
    (∀ j, k < j → j ≤ n → occursAt s pat j = false) → rfindFrom s pat n = k
  | 0, hk, hocc, _ => by
      have : k = 0 := Nat.le_zero.mp hk
      subst this
      simp [rfindFrom, hocc]
  | n + 1, hk, hocc, habove => by
      rcases Nat.lt_or_ge k (n + 1) with hlt | hge
      · have : occursAt s pat (n + 1) = false := habove (n + 1) hlt (Nat.le_refl _)
        simp only [rfindFrom, this, Bool.false_eq_true, if_false]
        exact rfindFrom_found (Nat.lt_succ_iff.mp hlt) hocc
          fun j hj hj2 => habove j hj (Nat.le_succ_of_le hj2)
      · have : k = n + 1 := Nat.le_antisymm hk hge
        subst this
        simp [rfindFrom, hocc]

theorem rfindFrom_mem {s pat : List Char} : ∀ {n k : Nat},
    rfindFrom s pat n = k → k ≠ NPOS → occursAt s pat k = true
  | 0, k, h, hne => by
      by_cases hc : occursAt s pat 0 = true
      · simp only [rfindFrom, hc, if_true] at h; subst h; exact hc
      · simp only [rfindFrom, hc, if_false] at h; exact absurd h.symm hne
  | n + 1, k, h, hne => by
      by_cases hc : occursAt s pat (n + 1) = true
      · simp only [rfindFrom, hc, if_true] at h; subst h; exact hc
      · simp only [rfindFrom, hc, if_false] at h
        exact rfindFrom_mem h hne

/-- Any filesystem name of length exactly 4 satisfies the code's inclusion
predicate: `rfind` returns `npos` and the `size_t` subtraction `4 - 5`
wraps to the same value. -/
theorem isRootFile_of_length_four {name : String}
    (h : name.data.length = 4) : isRootFile name = true := by
  have hocc : ∀ j, j ≤ name.data.length → occursAt name.data rootExt j = false := by
    intro j _
    by_contra hc
    have := occursAt_rootExt_le (Bool.of_not_eq_false hc)
    omega
  have hfind : strRfind name.data rootExt = NPOS := rfindFrom_none fun j hj => hocc j hj
  simp only [isRootFile, hfind, h]
  decide

/-- For any name short enough to be a real C++ string, the code's inclusion
predicate accepts exactly the names that end in `".root"` together with
the names of length exactly 4. -/
theorem isRootFile_iff {name : String} (hlen : name.data.length < UMAX) :
    isRootFile name = (endsWithRoot name || name.data.length == 4) := by
  set s := name.data with hs
  rcases Nat.lt_or_ge s.length 5 with hshort | hlong
  · -- no occurrence of a five-character pattern is possible
    have hocc : ∀ j, j ≤ s.length → occursAt s rootExt j = false := by
      intro j _
      by_contra hc
      have := occursAt_rootExt_le (Bool.of_not_eq_false hc)
      omega
    have hfind : strRfind s rootExt = NPOS := rfindFrom_none fun j hj => hocc j hj
    have hends : endsWithRoot name = false := by
      simp only [endsWithRoot, ← hs, Bool.and_eq_false_iff, decide_eq_false_iff_not]
      omega
    rcases Nat.lt_or_ge s.length 4 with h4 | h4
    · have hne : (s.length == 4) = false := by simp; omega
      simp only [isRootFile, ← hs, hfind, hends, hne, Bool.or_self]
      simp only [sizeSub5, NPOS, UMAX, beq_eq_false_iff_ne, ne_eq]
      intro hcontra
      omega
    · have h44 : s.length = 4 := by omega
      have : isRootFile name = true :=
        isRootFile_of_length_four (by rw [← hs]; exact h44)
      simp only [this, hends, ← hs, h44, Bool.false_or]
      decide
  · -- the name has at least five characters
    have hsub : sizeSub5 s.length = s.length - 5 := by
      simp only [sizeSub5]
      have h1 : s.length + UMAX - 5 = (s.length - 5) + UMAX := by
        simp only [UMAX]; omega
      rw [h1, Nat.add_mod_right]
      exact Nat.mod_eq_of_lt (by simp only [UMAX] at hlen ⊢; omega)
    have hne4 : (s.length == 4) = false := by simp; omega
    by_cases hend : occursAt s rootExt (s.length - 5) = true
    · have hfind : strRfind s rootExt = s.length - 5 :=
        rfindFrom_found (Nat.sub_le _ _) hend (by
          intro j hj _
          by_contra hc
          have := occursAt_rootExt_le (Bool.of_not_eq_false hc)
          omega)
      have hends : endsWithRoot name = true := by
        simp only [endsWithRoot, ← hs, hend, Bool.and_true, decide_eq_true_eq]
        omega
      simp [isRootFile, ← hs, hfind, hsub, hends]
    · have hendf : occursAt s rootExt (s.length - 5) = false :=
        Bool.of_not_eq_true hend
      have hends : endsWithRoot name = false := by
        simp [endsWithRoot, ← hs, hendf]
      simp only [hends, hne4, Bool.or_self]
      simp only [isRootFile, ← hs, hsub, beq_eq_false_iff_ne, ne_eq]
      intro hcontra
      rcases eq_or_ne (s.length - 5) NPOS with hnp | hnp
      · simp only [NPOS, UMAX] at hnp
        simp only [UMAX] at hlen
        omega
      · exact absurd (rfindFrom_mem hcontra hnp) (by simp [hendf])

/-! Lemmas about one `getEntries` call. -/

theorem getEntriesStep_handed (a f : String) (d : FileData) (p t : Nat)
    (st : GlobalState) : (getEntriesStep a f d p t st).state.handed = st.handed := by
  unfold getEntriesStep
  split
  · rfl
  · split <;> rfl

theorem getEntriesStep_yields (a f : String) (d : FileData) (p t : Nat)
    (st : GlobalState) : (getEntriesStep a f d p t st).state.yields =
      if d.opens && d.hasTree then mapAdd st.yields a d.nSelected else st.yields := by
  unfold getEntriesStep
  cases hd : d.opens <;> cases ht : d.hasTree <;> simp [hd, ht]

theorem getEntriesStep_bars (a f : String) (d : FileData) (p t : Nat)
    (st : GlobalState) : (getEntriesStep a f d p t st).state.bars =
      st.bars ++ (if d.opens && d.hasTree then [(p + 1, t)] else []) := by
  unfold getEntriesStep
  cases hd : d.opens <;> cases ht : d.hasTree <;> simp [hd, ht]

theorem getEntriesStep_progress (a f : String) (d : FileData) (p t : Nat)
    (st : GlobalState) : (getEntriesStep a f d p t st).progress =
      if d.opens && d.hasTree then p + 1 else p := by
  unfold getEntriesStep
  cases hd : d.opens <;> cases ht : d.hasTree <;> simp [hd, ht]

/-! Lemmas about the walk. -/

theorem processEntries_handed (dp : String) (total : Nat) (es : List Entry)
    (p : Nat) (st : GlobalState) :
    (processEntries dp total es p st).2.handed = st.handed ++ handedEntries dp es := by
  induction dp, total, es, p, st using processEntries.induct with
  | case1 dp total p st => simp [processEntries, handedEntries]
  | case2 dp total p st name d rest hroot ih =>
      rw [processEntries, if_pos hroot, ih, getEntriesStep_handed]
      simp [handedEntries, hroot, List.append_assoc]
  | case3 dp total p st name d rest hroot ih =>
      rw [processEntries, if_neg hroot, ih]
      simp [handedEntries, hroot]
  | case4 dp total p st name sub rest hdot ihsub ihrest =>
      rw [processEntries, if_pos hdot, if_pos rfl, ihrest, ihsub]
      simp [handedEntries, hdot, List.append_assoc]
  | case5 dp total p st name r sub rest hdot hr ihrest =>
      rw [processEntries, if_pos hdot, if_neg hr, ihrest]
      simp [handedEntries, hdot, hr]
  | case6 dp total p st name r sub rest hdot ihrest =>
      rw [processEntries, if_neg hdot, ihrest]
      simp [handedEntries, hdot]

theorem processEntries_yields (dp : String) (total : Nat) (es : List Entry)
    (p : Nat) (st : GlobalState) :
    (processEntries dp total es p st).2.yields =
      applyContribs st.yields (contribsOf (handedEntries dp es)) := by
  induction dp, total, es, p, st using processEntries.induct with
  | case1 dp total p st => simp [processEntries, handedEntries, contribsOf, applyContribs]
  | case2 dp total p st name d rest hroot ih =>
      rw [processEntries, if_pos hroot, ih, getEntriesStep_yields]
      by_cases hc : d.opens = true ∧ d.hasTree = true <;>
        simp [handedEntries, hroot, hc, contribsOf, applyContribs, Bool.and_eq_true]
  | case3 dp total p st name d rest hroot ih =>
      rw [processEntries, if_neg hroot, ih]
      simp [handedEntries, hroot]
  | case4 dp total p st name sub rest hdot ihsub ihrest =>
      rw [processEntries, if_pos hdot, if_pos rfl, ihrest, ihsub]
      simp [handedEntries, hdot, contribsOf, applyContribs,
        List.filterMap_append, List.foldl_append]
  | case5 dp total p st name r sub rest hdot hr ihrest =>
      rw [processEntries, if_pos hdot, if_neg hr, ihrest]
      simp [handedEntries, hdot, hr]
  | case6 dp total p st name r sub rest hdot ihrest =>
      rw [processEntries, if_neg hdot, ihrest]
      simp [handedEntries, hdot]

theorem handedEntries_eq_filter (dp : String) (es : List Entry) :
    handedEntries dp es = (allFilesEntries dp es).filter fun v => isRootFile v.name := by
  induction dp, es using handedEntries.induct with
  | case1 dp => simp [handedEntries, allFilesEntries]
  | case2 dp name d rest ih =>
      by_cases hroot : isRootFile name = true <;>
        simp [handedEntries, allFilesEntries, hroot, ih]
  | case3 dp name r sub rest ihsub ihrest =>
      by_cases hdot : name ≠ "." ∧ name ≠ ".." <;> cases r <;>
        simp [handedEntries, allFilesEntries, hdot, ihsub, ihrest, List.filter_append]

theorem countEntries_length (es : List Entry) : ∀ dp : String,
    countEntries es = (handedEntries dp es).length := by
  induction es using countEntries.induct with
  | case1 => intro dp; simp [countEntries, handedEntries]
  | case2 name d rest ih =>
      intro dp
      by_cases hroot : isRootFile name = true
      · simp [countEntries, handedEntries, hroot, ih dp, Nat.add_comm]
      · simp [countEntries, handedEntries, hroot, ih dp]
  | case3 name r sub rest ihsub ihrest =>
      intro dp
      by_cases hdot : name ≠ "." ∧ name ≠ ".." <;> cases r <;>
        simp [countEntries, handedEntries, hdot, ihsub (dp ++ "/" ++ name), ihrest dp,
          List.length_append]

theorem processEntries_bars_zero (dp : String) (total : Nat) (es : List Entry)
    (p : Nat) (st : GlobalState) :
    countEntries es = 0 → (processEntries dp total es p st).2.bars = st.bars := by
  induction dp, total, es, p, st using processEntries.induct with
  | case1 dp total p st => intro _; simp [processEntries]
  | case2 dp total p st name d rest hroot ih =>
      intro h
      simp [countEntries, hroot] at h
  | case3 dp total p st name d rest hroot ih =>
      intro h
      rw [processEntries, if_neg hroot]
      apply ih
      simpa [countEntries, hroot] using h
  | case4 dp total p st name sub rest hdot ihsub ihrest =>
      intro h
      have hsum : countEntries sub = 0 ∧ countEntries rest = 0 := by
        simp [countEntries, hdot] at h
        omega
      rw [processEntries, if_pos hdot, if_pos rfl, ihrest hsum.2, ihsub hsum.1]
  | case5 dp total p st name r sub rest hdot hr ihrest =>
      intro h
      have hrest : countEntries rest = 0 := by
        simp [countEntries, hdot, hr] at h
        omega
      rw [processEntries, if_pos hdot, if_neg hr, ihrest hrest]
  | case6 dp total p st name r sub rest hdot ihrest =>
      intro h
      have hrest : countEntries rest = 0 := by
        simp [countEntries, hdot] at h
        omega
      rw [processEntries, if_neg hdot, ihrest hrest]

theorem processEntries_bars_pos (dp : String) (total : Nat) (es : List Entry)
    (p : Nat) (st : GlobalState) :
    countEntries es ≤ total → (∀ b ∈ st.bars, 0 < b.2) →
      ∀ b ∈ (processEntries dp total es p st).2.bars, 0 < b.2 := by
  induction dp, total, es, p, st using processEntries.induct with
  | case1 dp total p st => intro _ hb; simpa [processEntries] using hb
  | case2 dp total p st name d rest hroot ih =>
      intro hle hb
      have hle' : countEntries rest + 1 ≤ total := by
        simp [countEntries, hroot] at hle
        omega
      rw [processEntries, if_pos hroot]
      apply ih (by omega)
      intro b hbmem
      rw [getEntriesStep_bars] at hbmem
      by_cases hc : d.opens = true ∧ d.hasTree = true
      · simp [Bool.and_eq_true, hc] at hbmem
        rcases hbmem with h1 | h2
        · exact hb b h1
        · rcases b with ⟨b1, b2⟩
          simp at h2
          simp [h2.2]
          omega
      · simp [Bool.and_eq_true, hc] at hbmem
        exact hb b hbmem
  | case3 dp total p st name d rest hroot ih =>
      intro hle hb
      rw [processEntries, if_neg hroot]
      apply ih ?_ hb
      simp [countEntries, hroot] at hle
      omega
  | case4 dp total p st name sub rest hdot ihsub ihrest =>
      intro hle hb
      have hle' : countEntries rest ≤ total := by
        simp [countEntries, hdot] at hle
        omega
      rw [processEntries, if_pos hdot, if_pos rfl]
      exact ihrest hle' (ihsub (Nat.le_refl _) (by simpa using hb))
  | case5 dp total p st name r sub rest hdot hr ihrest =>
      intro hle hb
      have hle' : countEntries rest ≤ total := by
        simp [countEntries, hdot, hr] at hle
        omega
      rw [processEntries, if_pos hdot, if_neg hr]
      exact ihrest hle' (by simpa using hb)
  | case6 dp total p st name r sub rest hdot ihrest =>
      intro hle hb
      have hle' : countEntries rest ≤ total := by
        simp [countEntries, hdot] at hle
        omega
      rw [processEntries, if_neg hdot]
      exact ihrest hle' hb

/-! Lemmas about the yields map. -/

theorem lookup0_mapAdd (m : List (String × Int)) (k k₀ : String) (v : Int) :
    lookup0 (mapAdd m k v) k₀ = lookup0 m k₀ + (if k = k₀ then v else 0) := by
  induction m with
  | nil =>
      by_cases h : k = k₀ <;> simp [mapAdd, lookup0, h]
  | cons e rest ih =>
      obtain ⟨k₁, v₁⟩ := e
      by_cases h1 : k₁ = k
      · subst h1
        by_cases h0 : k₁ = k₀ <;> simp [mapAdd, lookup0, h0]
      · by_cases h0 : k₁ = k₀
        · subst h0
          have hne : k ≠ k₁ := fun hh => h1 hh.symm
          simp [mapAdd, lookup0, h1, hne]
        · simp [mapAdd, lookup0, h1, h0, ih]

theorem lookup0_applyContribs (l : List (String × Int)) :
    ∀ (m : List (String × Int)) (s : String),
      lookup0 (applyContribs m l) s = lookup0 m s + contribSum s l := by
  induction l with
  | nil => intro m s; simp [applyContribs, contribSum]
  | cons e rest ih =>
      intro m s
      obtain ⟨k, v⟩ := e
      have step : applyContribs m ((k, v) :: rest) = applyContribs (mapAdd m k v) rest := rfl
      rw [step, ih, lookup0_mapAdd]
      by_cases h : k = s
      · simp [contribSum, h]
        ring
      · simp [contribSum, h]

theorem mem_keys_mapAdd (m : List (String × Int)) (k x : String) (v : Int) :
    x ∈ (mapAdd m k v).map Prod.fst ↔ x ∈ m.map Prod.fst ∨ x = k := by
  induction m with
  | nil => simp [mapAdd]
  | cons e rest ih =>
      obtain ⟨k₁, v₁⟩ := e
      by_cases h : k₁ = k <;> simp [mapAdd, h, ih] <;> tauto

theorem nodup_keys_mapAdd (m : List (String × Int)) (k : String) (v : Int)
    (h : (m.map Prod.fst).Nodup) : ((mapAdd m k v).map Prod.fst).Nodup := by
  induction m with
  | nil => simp [mapAdd]
  | cons e rest ih =>
      obtain ⟨k₁, v₁⟩ := e
      simp only [List.map_cons, List.nodup_cons] at h
      by_cases hk : k₁ = k
      · subst hk
        have step : mapAdd ((k₁, v₁) :: rest) k₁ v = (k₁, v₁ + v) :: rest := by
          simp [mapAdd]
        rw [step]
        simp only [List.map_cons, List.nodup_cons]
        exact ⟨h.1, h.2⟩
      · simp only [mapAdd, if_neg hk, List.map_cons, List.nodup_cons]
        constructor
        · rw [mem_keys_mapAdd]
          rintro (hmem | heq)
          · exact h.1 hmem
          · exact hk heq
        · exact ih h.2

theorem nodup_keys_applyContribs (l : List (String × Int)) :
    ∀ m : List (String × Int), (m.map Prod.fst).Nodup →
      ((applyContribs m l).map Prod.fst).Nodup := by
  induction l with
  | nil => intro m h; simpa [applyContribs] using h
  | cons e rest ih =>
      intro m h
      have step : applyContribs m (e :: rest) = applyContribs (mapAdd m e.1 e.2) rest := rfl
      rw [step]
      exact ih (mapAdd m e.1 e.2) (nodup_keys_mapAdd m e.1 e.2 h)

theorem foldl_add_snd (l : List (String × Int)) : ∀ c : Int,
    l.foldl (fun acc e => acc + e.2) c = c + (l.map Prod.snd).sum := by
  induction l with
  | nil => intro c; simp
  | cons e rest ih => intro c; simp [ih (c + e.2), add_assoc]

theorem grandTotal_eq_sum (m : List (String × Int)) :
    grandTotal m = (m.map Prod.snd).sum := by
  simpa [grandTotal] using foldl_add_snd m 0

/-! Top-level corollaries about a whole run. -/

theorem countRootFiles_true (es : List Entry) :
    countRootFiles true es = countEntries es := by
  simp [countRootFiles]

theorem processDirectory_true (dp : String) (es : List Entry) (st : GlobalState) :
    processDirectory dp true es st = (processEntries dp (countEntries es) es 0 st).2 := by
  simp [processDirectory, countRootFiles]

theorem processDirectory_false (dp : String) (es : List Entry) (st : GlobalState) :
    processDirectory dp false es st = { st with log := st.log ++ [errDir dp] } := by
  simp [processDirectory]

theorem runTabulator_handed (dp : String) (r : Bool) (es : List Entry) :
    (runTabulator dp r es).handed = if r then handedEntries dp es else [] := by
  cases r
  · simp [runTabulator, processDirectory_false, initialState]
  · simp [runTabulator, processDirectory_true, processEntries_handed, initialState]

theorem runTabulator_yields (dp : String) (r : Bool) (es : List Entry) :
    (runTabulator dp r es).yields =
      if r then applyContribs [] (contribsOf (handedEntries dp es)) else [] := by
  cases r
  · simp [runTabulator, processDirectory_false, initialState]
  · simp [runTabulator, processDirectory_true, processEntries_yields, initialState]

theorem runTabulator_bars_zero (dp : String) (r : Bool) (es : List Entry)
    (h : countRootFiles r es = 0) : (runTabulator dp r es).bars = [] := by
  cases r
  · simp [runTabulator, processDirectory_false, initialState]
  · rw [countRootFiles_true] at h
    have := processEntries_bars_zero dp (countEntries es) es 0 initialState h
    rw [runTabulator, processDirectory_true, this]
    rfl

theorem runTabulator_bars_pos (dp : String) (r : Bool) (es : List Entry) :
    ∀ b ∈ (runTabulator dp r es).bars, 0 < b.2 := by
  cases r
  · simp [runTabulator, processDirectory_false, initialState]
  · intro b hb
    refine processEntries_bars_pos dp (countEntries es) es 0 initialState
      (Nat.le_refl _) ?_ b ?_
    · simp [initialState]
    · simpa [runTabulator, processDirectory_true] using hb

theorem contribSum_perm {l₁ l₂ : List (String × Int)} (h : l₁.Perm l₂)
    (s : String) : contribSum s l₁ = contribSum s l₂ :=
  List.Perm.sum_eq (List.Perm.map Prod.snd (List.Perm.filter _ h))

/-! Concrete reader behaviours used in witnesses and counterexamples. -/

/-- A file that opens and has the tree, with 7 entries of which 5 are
selected. -/
def fdOk : FileData := ⟨true, true, 7, 5⟩

/-- A file that does not open (missing or corrupt: `TFile` is a zombie). -/
def fdNoOpen : FileData := ⟨false, false, 0, 0⟩

/-- A file that opens but does not contain the tree `nominal_Loose`. -/
def fdNoTree : FileData := ⟨true, false, 3, 2⟩

/-! The claims. -/

/-- C1: in every run of the accumulating variant, for every sample
identifier the final value stored in the sample-yield mapping equals the
sum of the selected-entry counts of every successfully processed file
whose derived identifier equals that sample (merge by addition), and this
total is unchanged under any reordering of the contributions. -/
theorem claim_C1 (dp : String) (r : Bool) (es : List Entry) (s : String) :
    lookup0 (runTabulator dp r es).yields s =
        contribSum s (contribsOf ((runTabulator dp r es).handed)) ∧
      ∀ l : List (String × Int),
        (contribsOf ((runTabulator dp r es).handed)).Perm l →
          contribSum s l = contribSum s (contribsOf ((runTabulator dp r es).handed)) := by
  constructor
  · rw [runTabulator_yields, runTabulator_handed]
    cases r
    · simp [lookup0, contribsOf, contribSum]
    · simp only [ite_true]
      rw [lookup0_applyContribs]
      simp [lookup0]
  · intro l hperm
    exact contribSum_perm hperm.symm s

/-- Witness for C1 at a one-file tree, with the identity permutation. -/
theorem claim_C1_witness :
    lookup0 (runTabulator "r" true [Entry.file "a.root" fdOk]).yields "a" =
        contribSum "a"
          (contribsOf ((runTabulator "r" true [Entry.file "a.root" fdOk]).handed)) ∧
      contribSum "a"
          (contribsOf ((runTabulator "r" true [Entry.file "a.root" fdOk]).handed)) =
        contribSum "a"
          (contribsOf ((runTabulator "r" true [Entry.file "a.root" fdOk]).handed)) :=
  ⟨(claim_C1 "r" true [Entry.file "a.root" fdOk] "a").1,
   (claim_C1 "r" true [Entry.file "a.root" fdOk] "a").2 _ (List.Perm.refl _)⟩

/-- C2 counterexample: in a root directory holding the single file
`"abcd"` — a name of length four that does not end in `".root"` — the walk
hands that file to the per-file routine although the set of files ending
in the recognized extension is empty, so the handed set differs from the
spec's eligible set. -/
theorem claim_C2_counterexample :
    (runTabulator "r" true [Entry.file "abcd" fdOk]).handed ≠
      specEligibleFiles "r" [Entry.file "abcd" fdOk] := by
  rw [runTabulator_handed]
  simp [handedEntries, specEligibleFiles,
    show isRootFile "abcd" = true from by decide,
    show endsWithRoot "abcd" = false from by decide]

/-- C2 amended: the files the walk hands to the per-file routine are
exactly the files under the root (in readable, non-pseudo directories)
whose names satisfy the code's predicate — which accepts a name exactly
when it ends in `".root"` or has length exactly 4 — each handed once
(distinct paths stay distinct). -/
theorem claim_C2 (dp : String) (r : Bool) (es : List Entry) :
    (runTabulator dp r es).handed =
        (if r then allFilesEntries dp es else []).filter (fun v => isRootFile v.name) ∧
      (((if r then allFilesEntries dp es else []).map FileVisit.path).Nodup →
        (((runTabulator dp r es).handed).map FileVisit.path).Nodup) ∧
      ∀ name : String, name.data.length < UMAX →
        isRootFile name = (endsWithRoot name || name.data.length == 4) := by
  have hfil : (runTabulator dp r es).handed =
      (if r then allFilesEntries dp es else []).filter (fun v => isRootFile v.name) := by
    rw [runTabulator_handed]
    cases r
    · simp
    · simp [handedEntries_eq_filter]
  refine ⟨hfil, ?_, fun name hl => isRootFile_iff hl⟩
  intro hnd
  rw [hfil]
  exact hnd.sublist (List.Sublist.map _ (List.filter_sublist _))

/-- Witness for C2 amended, at a one-file tree and the name `"abcd"`. -/
theorem claim_C2_witness :
    (((runTabulator "r" true [Entry.file "a.root" fdOk]).handed).map FileVisit.path).Nodup ∧
      isRootFile "abcd" = (endsWithRoot "abcd" || ("abcd" : String).data.length == 4) :=
  ⟨(claim_C2 "r" true [Entry.file "a.root" fdOk]).2.1 (by simp [allFilesEntries]),
   (claim_C2 "r" true [Entry.file "a.root" fdOk]).2.2 "abcd" (by decide)⟩

/-- C3: the progress indicator displays exactly 100 percent whenever the
processed count equals the total; a tree whose pre-computed eligible count
is zero triggers no progress-bar call at all; and every progress-bar call
made by a run has a strictly positive total, so no division by a zero
total occurs. -/
theorem claim_C3 (dp : String) (r : Bool) (es : List Entry) :
    (∀ t : Nat, 0 < t → printProgressBarPercent t t = 100) ∧
      (countRootFiles r es = 0 → (runTabulator dp r es).bars = []) ∧
      ∀ b ∈ (runTabulator dp r es).bars, 0 < b.2 := by
  refine ⟨?_, runTabulator_bars_zero dp r es, runTabulator_bars_pos dp r es⟩
  intro t ht
  have hne : (t : ℚ) ≠ 0 := by
    exact_mod_cast Nat.pos_iff_ne_zero.mp ht
  simp [printProgressBarPercent, div_self hne]

/-- Witness for C3 at `t = 3` and the empty tree. -/
theorem claim_C3_witness :
    printProgressBarPercent 3 3 = 100 ∧ (runTabulator "r" true []).bars = [] :=
  ⟨(claim_C3 "r" true []).1 3 (by decide),
   (claim_C3 "r" true []).2.1 (by simp [countRootFiles, countEntries])⟩

/-- C4: the closing summary has one row per distinct sample identifier
(the keys of the final mapping are pairwise distinct) and the grand total
of the final `Total yield` line equals the sum of the per-sample totals
written in the summary rows. -/
theorem claim_C4 (dp : String) (r : Bool) (es : List Entry) :
    (((runTabulator dp r es).yields.map Prod.fst).Nodup) ∧
      (summaryLines (runTabulator dp r es).yields).length =
        (runTabulator dp r es).yields.length ∧
      grandTotal (runTabulator dp r es).yields =
        ((runTabulator dp r es).yields.map Prod.snd).sum := by
  refine ⟨?_, List.length_map _ _, grandTotal_eq_sum _⟩
  rw [runTabulator_yields]
  cases r
  · simp
  · simp only [ite_true]
    exact nodup_keys_applyContribs _ [] (by simp)

/-- C5: the up-front counting pass agrees with the main walk: the value of
`countRootFiles` on a root equals the number of files the recursive walk
under that root hands to the per-file processing routine. -/
theorem claim_C5 (dp : String) (r : Bool) (es : List Entry) :
    countRootFiles r es = (runTabulator dp r es).handed.length := by
  rw [runTabulator_handed]
  cases r
  · simp [countRootFiles]
  · simp [countRootFiles, countEntries_length es dp]

/-- C6: a per-file failure is recoverable and never fatal.  When a handed
file does not open, or opens without the tree `nominal_Loose`, the walk on
`file :: rest` equals the walk on `rest` from a state that differs only in
the diagnostic line appended to the report (and the file having been
handed): the yields map gains nothing, and the traversal continues with
the remaining entries. -/
theorem claim_C6 (dp : String) (total : Nat) (name : String) (d : FileData)
    (rest : List Entry) (p : Nat) (st : GlobalState)
    (hroot : isRootFile name = true) :
    (d.opens = false →
      processEntries dp total (Entry.file name d :: rest) p st =
        processEntries dp total rest p
          { st with log := st.log ++ [errOpen (dp ++ "/" ++ name)],
                    handed := st.handed ++ [⟨name, dp ++ "/" ++ name, d⟩] }) ∧
    (d.opens = true → d.hasTree = false →
      processEntries dp total (Entry.file name d :: rest) p st =
        processEntries dp total rest p
          { st with log := st.log ++ [errTree (dp ++ "/" ++ name)],
                    handed := st.handed ++ [⟨name, dp ++ "/" ++ name, d⟩] }) := by
  constructor
  · intro hopen
    rw [processEntries, if_pos hroot]
    simp [getEntriesStep, hopen]
  · intro hopen htree
    rw [processEntries, if_pos hroot]
    simp [getEntriesStep, hopen, htree]

/-- Witness for C6: a root-suffixed file that does not open, in front of an
empty remainder. -/
theorem claim_C6_witness :
    processEntries "r" 1 [Entry.file "x.root" fdNoOpen] 0 initialState =
      processEntries "r" 1 [] 0
        { initialState with
            log := initialState.log ++ [errOpen ("r" ++ "/" ++ "x.root")],
            handed := initialState.handed ++ [⟨"x.root", "r" ++ "/" ++ "x.root", fdNoOpen⟩] } :=
  (claim_C6 "r" 1 "x.root" fdNoOpen [] 0 initialState (by decide)).1 rfl

/-- C7 counterexample: on the open-failure (zombie) path the routine
returns without closing the handle — `getEntries` at a file that does not
open reports the handle as not closed, contradicting the claim that every
exit path releases it. -/
theorem claim_C7_counterexample :
    (getEntriesStep "s" "p" fdNoOpen 0 1 initialState).closed = false := rfl

/-- C7 amended: the handle is released on the table-absent exit path and
on the success path, but not on the open-failure path: the routine closes
the handle exactly when the open succeeded. -/
theorem claim_C7 (a full : String) (d : FileData) (p t : Nat) (st : GlobalState) :
    (getEntriesStep a full d p t st).closed = d.opens := by
  unfold getEntriesStep
  cases hd : d.opens <;> cases ht : d.hasTree <;> simp [hd, ht]

/-- C8: the computation is deterministic in its inputs — equal trees give
byte-identical run states — and the grand total is moreover independent of
the (unspecified) enumeration order of the `unordered_map`: any
permutation of the final map yields the same grand total. -/
theorem claim_C8 (dp : String) (r : Bool) (es₁ es₂ : List Entry)
    (h : es₁ = es₂) :
    runTabulator dp r es₁ = runTabulator dp r es₂ ∧
      ∀ l : List (String × Int), l.Perm (runTabulator dp r es₁).yields →
        grandTotal l = grandTotal (runTabulator dp r es₁).yields := by
  subst h
  refine ⟨rfl, ?_⟩
  intro l hperm
  rw [grandTotal_eq_sum, grandTotal_eq_sum]
  exact List.Perm.sum_eq (hperm.map Prod.snd)

/-- Witness for C8 at the empty tree. -/
theorem claim_C8_witness :
    runTabulator "r" true [] = runTabulator "r" true [] ∧
      grandTotal (runTabulator "r" true []).yields =
        grandTotal (runTabulator "r" true []).yields :=
  ⟨(claim_C8 "r" true [] [] rfl).1,
   (claim_C8 "r" true [] [] rfl).2 _ (List.Perm.refl _)⟩

/-- C9: every per-file error exit is atomic with respect to the
accumulator state: if the file does not open or the tree is absent, the
routine returns with the sample-yield mapping and the caller's progress
counter exactly as they were before the call. -/
theorem claim_C9 (a full : String) (d : FileData) (p t : Nat)
    (st : GlobalState) (h : d.opens = false ∨ d.hasTree = false) :
    (getEntriesStep a full d p t st).state.yields = st.yields ∧
      (getEntriesStep a full d p t st).progress = p := by
  rcases h with h | h
  · simp [getEntriesStep, h]
  · cases hd : d.opens <;> simp [getEntriesStep, hd, h]

/-- Witness for C9 at a file that opens but lacks the tree. -/
theorem claim_C9_witness :
    (getEntriesStep "s" "p" fdNoTree 0 1 initialState).state.yields =
        initialState.yields ∧
      (getEntriesStep "s" "p" fdNoTree 0 1 initialState).progress = 0 :=
  claim_C9 "s" "p" fdNoTree 0 1 initialState (Or.inr rfl)

/-- C10: every non-directory entry whose name is exactly 4 characters long
satisfies the inclusion check — `rfind` returns `npos` and the unsigned
subtraction `4 - 5` wraps to the same value — so although its name does
not end in `".root"` it is counted by the pre-pass and handed to the
per-file processing routine. -/
theorem claim_C10 (name : String) (d : FileData) (dp : String)
    (h : name.data.length = 4) :
    isRootFile name = true ∧ endsWithRoot name = false ∧
      countRootFiles true [Entry.file name d] = 1 ∧
      (runTabulator dp true [Entry.file name d]).handed =
        [⟨name, dp ++ "/" ++ name, d⟩] := by
  have hroot := isRootFile_of_length_four h
  have hends : endsWithRoot name = false := by
    simp [endsWithRoot, h]
  refine ⟨hroot, hends, ?_, ?_⟩
  · simp [countRootFiles, countEntries, hroot]
  · rw [runTabulator_handed]
    simp [handedEntries, hroot]

/-- Witness for C10 at the name `"abcd"`. -/
theorem claim_C10_witness :
    isRootFile "abcd" = true ∧ endsWithRoot "abcd" = false ∧
      countRootFiles true [Entry.file "abcd" fdOk] = 1 ∧
      (runTabulator "r" true [Entry.file "abcd" fdOk]).handed =
        [⟨"abcd", "r" ++ "/" ++ "abcd", fdOk⟩] :=
  claim_C10 "abcd" fdOk "r" (by decide)

end EventYieldV2
